import Mathlib

/-!
Verification of the expirable-cache engine (`loadingCacheImpl` and the
legacy generic adapter `cacheImpl`) against its natural-language
specification.

The shallow embedding below translates the Go source directly:

* `Stats`, `CacheItem`, `LoadingCache` mirror the `Stats`, `cacheItem`
  and `loadingCacheImpl` structs.  Time instants and durations are `Int`
  (nanoseconds); `time.Now().After(e)` is `e < now`.
* The doubly-linked `evictList` is represented as a `List CacheItem`
  stored OLDEST FIRST: the Go list's `Back()` (oldest) is the head of
  the Lean list and `Front()` (most recent) is the last element, so
  `PushFront` appends at the end and back-removal drops the head.
* The `items` map always references exactly the nodes of the list (the
  code keeps them in sync under the lock), so a map lookup
  `c.items[key]` is embedded as `findEntry`, the first node of the list
  holding that key.
* Operations take the current instant `now : Int` explicitly where the
  Go code calls `time.Now()`.  The eviction callback only observes
  removals and never alters the state, so it is not represented.
-/

/-- Go `Stats`: hit/miss/added/evicted counters. -/
structure Stats where
  hits : Nat
  misses : Nat
  added : Nat
  evicted : Nat
deriving Repr, DecidableEq

/-- Go `cacheItem`: key, value and absolute expiration instant. -/
structure CacheItem where
  key : String
  value : Nat
  expiresAt : Int
deriving Repr, DecidableEq

/-- Go `loadingCacheImpl`: configuration, counters and the recency list
(oldest first; the `items` map is derived from the list, see `findEntry`). -/
structure LoadingCache where
  ttl : Int
  maxKeys : Nat
  isLRU : Bool
  stat : Stats
  evictList : List CacheItem
deriving Repr, DecidableEq

/-- Go `noEvictionTTL = time.Hour * 24 * 365 * 10` in nanoseconds. -/
def noEvictionTTL : Int := 315360000000000000

/-- Lookup in the `items` map: the node of the list holding `k`. -/
def findEntry : List CacheItem → String → Option CacheItem
  | [], _ => none
  | it :: rest, k => if it.key == k then some it else findEntry rest k

/-- The `ok` flag of the Go map lookup `c.items[key]`. -/
def hasKey (l : List CacheItem) (k : String) : Bool :=
  (findEntry l k).isSome

/-- Unlinking one node from the list: removes the first node keyed `k`. -/
def eraseKey : List CacheItem → String → List CacheItem
  | [], _ => []
  | it :: rest, k => if it.key == k then rest else it :: eraseKey rest k

/-- The keys of the list nodes, oldest first (Go `keys()`). -/
def keysOf (l : List CacheItem) : List String :=
  l.map CacheItem.key

/-- Invariant I3: no two nodes share a key. -/
def NodupKeys (l : List CacheItem) : Prop :=
  (keysOf l).Nodup

/-- Go `removeElement`: unlink the node keyed `k` from the list, delete it
from the map and count one eviction. -/
def removeElement (c : LoadingCache) (k : String) : LoadingCache :=
  { c with evictList := eraseKey c.evictList k,
           stat := { c.stat with evicted := c.stat.evicted + 1 } }

/-- Go `removeOldest`: remove the back node if the list is non-empty. -/
def removeOldest (c : LoadingCache) : LoadingCache :=
  match c.evictList.head? with
  | some it => removeElement c it.key
  | none => c

/-- Go `removeOldestIfExpired`: remove the back node if it exists and is
expired (`time.Now().After(expiresAt)`). -/
def removeOldestIfExpired (c : LoadingCache) (now : Int) : LoadingCache :=
  match c.evictList.head? with
  | some it => if it.expiresAt < now then removeElement c it.key else c
  | none => c

/-- Go `loadingCacheImpl.Set`: update-and-promote an existing key, or
insert a fresh entry at the front, count it as added, opportunistically
trim an expired back node (only under a configured TTL) and enforce the
size cap. -/
def setOp (c : LoadingCache) (now : Int) (k : String) (v : Nat) : LoadingCache :=
  if hasKey c.evictList k then
    { c with evictList := eraseKey c.evictList k ++ [⟨k, v, now + c.ttl⟩] }
  else
    let c1 : LoadingCache :=
      { c with evictList := c.evictList ++ [⟨k, v, now + c.ttl⟩],
               stat := { c.stat with added := c.stat.added + 1 } }
    let c2 : LoadingCache :=
      if c1.ttl ≠ noEvictionTTL then removeOldestIfExpired c1 now else c1
    if c2.maxKeys > 0 && c2.evictList.length > c2.maxKeys then removeOldest c2 else c2

/-- Go `loadingCacheImpl.Get`: `(value, ok)` plus the successor state.
A present-but-expired entry counts a miss and is reported absent (`none`);
a live hit counts a hit and, in LRU mode, promotes the node to the front. -/
def getOp (c : LoadingCache) (now : Int) (k : String) : Option Nat × LoadingCache :=
  match findEntry c.evictList k with
  | some it =>
    if it.expiresAt < now then
      (none, { c with stat := { c.stat with misses := c.stat.misses + 1 } })
    else
      let c1 : LoadingCache :=
        if c.isLRU then { c with evictList := eraseKey c.evictList k ++ [it] } else c
      (some it.value, { c1 with stat := { c1.stat with hits := c1.stat.hits + 1 } })
  | none => (none, { c with stat := { c.stat with misses := c.stat.misses + 1 } })

/-- Go `loadingCacheImpl.Peek`: like `Get` but touches neither the
recency order nor the counters; the unchanged receiver is returned
explicitly as the successor state. -/
def peekOp (c : LoadingCache) (now : Int) (k : String) : Option Nat × LoadingCache :=
  match findEntry c.evictList k with
  | some it => if it.expiresAt < now then (none, c) else (some it.value, c)
  | none => (none, c)

/-- Go `keys()`: keys from oldest (back) to newest (front). -/
def keysOp (c : LoadingCache) : List String :=
  keysOf c.evictList

/-- Go `Len()`: number of nodes, expired ones included. -/
def lenOp (c : LoadingCache) : Nat :=
  c.evictList.length

/-- Go `Stat()`: snapshot of the counters. -/
def statOp (c : LoadingCache) : Stats :=
  c.stat

/-- Go `Invalidate`: remove the key if present. -/
def invalidate (c : LoadingCache) (k : String) : LoadingCache :=
  if hasKey c.evictList k then removeElement c k else c

/-- Go `InvalidateFn`: remove every entry whose key satisfies the
predicate, counting one eviction each (map iteration order is
unobservable in the result). -/
def invalidateFn (c : LoadingCache) (p : String → Bool) : LoadingCache :=
  { c with evictList := c.evictList.filter (fun it => !(p it.key)),
           stat := { c.stat with
                      evicted := c.stat.evicted + (c.evictList.filter (fun it => p it.key)).length } }

/-- The loop body of Go `DeleteExpired`: walk the key snapshot from the
back, removing expired nodes; in LRC mode stop at the first live node.
(A key missing from the map cannot occur on the snapshot of a synced
cache; such a step is skipped.) -/
def deleteExpiredGo (now : Int) : LoadingCache → List String → LoadingCache
  | c, [] => c
  | c, k :: ks =>
    match findEntry c.evictList k with
    | some it =>
      if it.expiresAt < now then deleteExpiredGo now (removeElement c k) ks
      else if c.isLRU then deleteExpiredGo now c ks
      else c
    | none => deleteExpiredGo now c ks

/-- Go `DeleteExpired`: iterate the loop body over the key snapshot. -/
def deleteExpired (c : LoadingCache) (now : Int) : LoadingCache :=
  deleteExpiredGo now c (keysOp c)

/-- Go `Purge`: delete every map entry, counting each as evicted, and
reinitialize the list. -/
def purge (c : LoadingCache) : LoadingCache :=
  { c with evictList := [],
           stat := { c.stat with evicted := c.stat.evicted + c.evictList.length } }

/-- Go `NewLoadingCache` after the options ran: empty state with the
configured TTL, size cap and eviction mode. -/
def newLoadingCache (ttl : Int) (maxKeys : Nat) (isLRU : Bool) : LoadingCache :=
  { ttl := ttl, maxKeys := maxKeys, isLRU := isLRU,
    stat := ⟨0, 0, 0, 0⟩, evictList := [] }

/-- Reachable states: `Reach ttl maxKeys isLRU c t` holds when `c` arises
from the empty cache by a sequence of operations whose `time.Now()`
instants are non-decreasing and at most `t`. -/
inductive Reach (ttl : Int) (maxKeys : Nat) (isLRU : Bool) : LoadingCache → Int → Prop where
  | init (t : Int) : Reach ttl maxKeys isLRU (newLoadingCache ttl maxKeys isLRU) t
  | tick {c : LoadingCache} {t : Int} (t' : Int) (h : Reach ttl maxKeys isLRU c t)
      (hle : t ≤ t') : Reach ttl maxKeys isLRU c t'
  | set {c : LoadingCache} {t : Int} (k : String) (v : Nat)
      (h : Reach ttl maxKeys isLRU c t) : Reach ttl maxKeys isLRU (setOp c t k v) t
  | get {c : LoadingCache} {t : Int} (k : String)
      (h : Reach ttl maxKeys isLRU c t) : Reach ttl maxKeys isLRU (getOp c t k).2 t
  | peekStep {c : LoadingCache} {t : Int} (k : String)
      (h : Reach ttl maxKeys isLRU c t) : Reach ttl maxKeys isLRU (peekOp c t k).2 t
  | inval {c : LoadingCache} {t : Int} (k : String)
      (h : Reach ttl maxKeys isLRU c t) : Reach ttl maxKeys isLRU (invalidate c k) t
  | invalFn {c : LoadingCache} {t : Int} (p : String → Bool)
      (h : Reach ttl maxKeys isLRU c t) : Reach ttl maxKeys isLRU (invalidateFn c p) t
  | remOld {c : LoadingCache} {t : Int}
      (h : Reach ttl maxKeys isLRU c t) : Reach ttl maxKeys isLRU (removeOldest c) t
  | delExp {c : LoadingCache} {t : Int}
      (h : Reach ttl maxKeys isLRU c t) : Reach ttl maxKeys isLRU (deleteExpired c t) t
  | purgeStep {c : LoadingCache} {t : Int}
      (h : Reach ttl maxKeys isLRU c t) : Reach ttl maxKeys isLRU (purge c) t

/-! ### Basic lemmas about `findEntry` and `eraseKey` -/

theorem findEntry_some_key {l : List CacheItem} {k : String} {it : CacheItem}
    (h : findEntry l k = some it) : it.key = k := by
  induction l with
  | nil => simp [findEntry] at h
  | cons a rest ih =>
    by_cases hb : a.key == k
    · simp [findEntry, hb] at h
      subst h
      exact eq_of_beq hb
    · simp [findEntry, hb] at h
      exact ih h

theorem findEntry_mem {l : List CacheItem} {k : String} {it : CacheItem}
    (h : findEntry l k = some it) : it ∈ l := by
  induction l with
  | nil => simp [findEntry] at h
  | cons a rest ih =>
    by_cases hb : a.key == k
    · simp [findEntry, hb] at h
      simp [h]
    · simp [findEntry, hb] at h
      exact List.mem_cons_of_mem _ (ih h)

theorem findEntry_eq_none {l : List CacheItem} {k : String}
    (h : findEntry l k = none) : ∀ it ∈ l, it.key ≠ k := by
  induction l with
  | nil => simp
  | cons a rest ih =>
    by_cases hb : a.key == k
    · simp [findEntry, hb] at h
    · simp [findEntry, hb] at h
      intro it hm
      rcases List.mem_cons.mp hm with hh | ht
      · subst hh
        simpa using hb
      · exact ih h it ht

theorem hasKey_of_mem {l : List CacheItem} {k : String} {it : CacheItem}
    (hm : it ∈ l) (hk : it.key = k) : hasKey l k = true := by
  cases hf : findEntry l k with
  | some j => simp [hasKey, hf]
  | none => exact absurd hk (findEntry_eq_none hf it hm)

theorem eraseKey_sublist (l : List CacheItem) (k : String) :
    List.Sublist (eraseKey l k) l := by
  induction l with
  | nil => simp [eraseKey]
  | cons a rest ih =>
    by_cases hb : a.key == k
    · simp [eraseKey, hb, List.sublist_cons_self a rest]
    · simpa [eraseKey, hb] using ih.cons₂ a

theorem mem_eraseKey_of_ne {l : List CacheItem} {k : String} {it : CacheItem}
    (hm : it ∈ l) (hk : it.key ≠ k) : it ∈ eraseKey l k := by
  induction l with
  | nil => simp at hm
  | cons a rest ih =>
    rcases List.mem_cons.mp hm with hh | ht
    · subst hh
      have hb : (it.key == k) = false := by simpa using hk
      simp [eraseKey, hb]
    · by_cases hb : a.key == k
      · simpa [eraseKey, hb] using ht
      · simp only [eraseKey, hb, if_neg]
        simp [ih ht]

theorem length_eraseKey {l : List CacheItem} {k : String}
    (h : hasKey l k = true) : (eraseKey l k).length + 1 = l.length := by
  induction l with
  | nil => simp [hasKey, findEntry] at h
  | cons a rest ih =>
    by_cases hb : a.key == k
    · simp [eraseKey, hb]
    · have h' : hasKey rest k = true := by
        simpa [hasKey, findEntry, hb] using h
      simp only [eraseKey, hb, if_neg]
      simp [← ih h', List.length_cons]

theorem eraseKey_of_not_hasKey {l : List CacheItem} {k : String}
    (h : hasKey l k = false) : eraseKey l k = l := by
  induction l with
  | nil => simp [eraseKey]
  | cons a rest ih =>
    by_cases hb : a.key == k
    · simp [hasKey, findEntry, hb] at h
    · have h' : hasKey rest k = false := by
        simpa [hasKey, findEntry, hb] using h
      simp [eraseKey, hb, ih h']

theorem nodupKeys_sublist {l₁ l₂ : List CacheItem}
    (hs : List.Sublist l₁ l₂) (h : NodupKeys l₂) : NodupKeys l₁ :=
  List.Nodup.sublist (List.Sublist.map CacheItem.key hs) h

theorem not_mem_keysOf {l : List CacheItem} {k : String}
    (h : hasKey l k = false) : k ∉ keysOf l := by
  intro hm
  rcases List.mem_map.mp hm with ⟨it, hit, hk⟩
  cases hf : findEntry l k with
  | some j => simp [hasKey, hf] at h
  | none => exact findEntry_eq_none hf it hit hk

theorem hasKey_false_of_not_mem {l : List CacheItem} {k : String}
    (h : k ∉ keysOf l) : hasKey l k = false := by
  cases hf : findEntry l k with
  | some j =>
    exact absurd (List.mem_map.mpr ⟨j, findEntry_mem hf, findEntry_some_key hf⟩) h
  | none => simp [hasKey, hf]

theorem nodupKeys_cons {a : CacheItem} {rest : List CacheItem} :
    NodupKeys (a :: rest) ↔ a.key ∉ keysOf rest ∧ NodupKeys rest := by
  unfold NodupKeys keysOf
  rw [List.map_cons, List.nodup_cons]

theorem eraseKey_eq_filter {l : List CacheItem} {k : String} (h : NodupKeys l) :
    eraseKey l k = l.filter (fun it => !(it.key == k)) := by
  induction l with
  | nil => simp [eraseKey]
  | cons a rest ih =>
    have hrest : NodupKeys rest := (nodupKeys_cons.mp h).2
    by_cases hb : a.key == k
    · have hak : a.key = k := eq_of_beq hb
      have hnk : k ∉ keysOf rest := hak ▸ (nodupKeys_cons.mp h).1
      have : rest.filter (fun it => !(it.key == k)) = rest := by
        apply List.filter_eq_self.mpr
        intro it hm
        have : it.key ≠ k := fun he => hnk (List.mem_map.mpr ⟨it, hm, he⟩)
        simpa using this
      simp [eraseKey, hb, List.filter_cons, this]
    · simp [eraseKey, hb, List.filter_cons, ih hrest]

theorem keysOf_eraseKey {l : List CacheItem} {k : String} (h : NodupKeys l) :
    keysOf (eraseKey l k) = (keysOf l).filter (fun x => !(x == k)) := by
  rw [eraseKey_eq_filter h]
  simp [keysOf, List.filter_map]
  rfl

theorem hasKey_eraseKey_self {l : List CacheItem} {k : String} (h : NodupKeys l) :
    hasKey (eraseKey l k) k = false := by
  apply hasKey_false_of_not_mem
  rw [keysOf_eraseKey h]
  intro hm
  exact absurd (List.of_mem_filter hm) (by simp)

theorem nodupKeys_eraseKey_append {l : List CacheItem} {k : String} {it : CacheItem}
    (h : NodupKeys l) (hk : it.key = k) : NodupKeys (eraseKey l k ++ [it]) := by
  have h1 : NodupKeys (eraseKey l k) := nodupKeys_sublist (eraseKey_sublist l k) h
  have h2 : k ∉ keysOf (eraseKey l k) := not_mem_keysOf (hasKey_eraseKey_self h)
  simp only [NodupKeys, keysOf, List.map_append, List.map_cons, List.map_nil]
  refine (List.nodup_append).mpr ⟨h1, by simp, ?_⟩
  intro x hx
  simp only [List.mem_singleton, hk]
  intro he
  subst he
  exact absurd hx h2

theorem nodupKeys_append_fresh {l : List CacheItem} {k : String} {it : CacheItem}
    (h : NodupKeys l) (hfresh : hasKey l k = false) (hk : it.key = k) :
    NodupKeys (l ++ [it]) := by
  have h2 : k ∉ keysOf l := not_mem_keysOf hfresh
  simp only [NodupKeys, keysOf, List.map_append, List.map_cons, List.map_nil]
  refine (List.nodup_append).mpr ⟨h, by simp, ?_⟩
  intro x hx
  simp only [List.mem_singleton, hk]
  intro he
  subst he
  exact absurd hx h2

theorem keyUnique {l : List CacheItem} {a b : CacheItem} (h : NodupKeys l)
    (ha : a ∈ l) (hb : b ∈ l) (hk : a.key = b.key) : a = b := by
  induction l with
  | nil => simp at ha
  | cons x rest ih =>
    have hx : x.key ∉ keysOf rest := (nodupKeys_cons.mp h).1
    have hrest : NodupKeys rest := (nodupKeys_cons.mp h).2
    rcases List.mem_cons.mp ha with hah | hat
    · rcases List.mem_cons.mp hb with hbh | hbt
      · rw [hah, hbh]
      · subst hah
        exact absurd (List.mem_map.mpr ⟨b, hbt, hk.symm⟩) hx
    · rcases List.mem_cons.mp hb with hbh | hbt
      · subst hbh
        exact absurd (List.mem_map.mpr ⟨a, hat, hk⟩) hx
      · exact ih hrest hat hbt

theorem findEntry_of_mem {l : List CacheItem} {k : String} {it : CacheItem}
    (h : NodupKeys l) (hm : it ∈ l) (hk : it.key = k) : findEntry l k = some it := by
  cases hf : findEntry l k with
  | some j =>
    have : j = it :=
      keyUnique h (findEntry_mem hf) hm ((findEntry_some_key hf).trans hk.symm)
    rw [this]
  | none => exact absurd hk (findEntry_eq_none hf it hm)

/-! ### Configuration fields are never written by operations -/

/-- State `c'` carries the same configuration (TTL, size cap, mode) as `c`. -/
def SameCfg (c c' : LoadingCache) : Prop :=
  c'.ttl = c.ttl ∧ c'.maxKeys = c.maxKeys ∧ c'.isLRU = c.isLRU

theorem sameCfg_refl (c : LoadingCache) : SameCfg c c :=
  ⟨rfl, rfl, rfl⟩

theorem sameCfg_trans {a b c : LoadingCache} (h1 : SameCfg a b) (h2 : SameCfg b c) :
    SameCfg a c :=
  ⟨h2.1.trans h1.1, h2.2.1.trans h1.2.1, h2.2.2.trans h1.2.2⟩

theorem sameCfg_removeElement (c : LoadingCache) (k : String) :
    SameCfg c (removeElement c k) :=
  ⟨rfl, rfl, rfl⟩

theorem sameCfg_removeOldest (c : LoadingCache) : SameCfg c (removeOldest c) := by
  unfold removeOldest
  cases c.evictList.head? with
  | some it => exact sameCfg_removeElement c it.key
  | none => exact sameCfg_refl c

theorem sameCfg_removeOldestIfExpired (c : LoadingCache) (now : Int) :
    SameCfg c (removeOldestIfExpired c now) := by
  unfold removeOldestIfExpired
  cases c.evictList.head? with
  | some it =>
    by_cases hx : it.expiresAt < now
    · simpa [hx] using sameCfg_removeElement c it.key
    · simpa [hx] using sameCfg_refl c
  | none => exact sameCfg_refl c

theorem sameCfg_setOp (c : LoadingCache) (now : Int) (k : String) (v : Nat) :
    SameCfg c (setOp c now k v) := by
  unfold setOp
  by_cases hk : hasKey c.evictList k
  · simp only [hk, if_pos]
    exact ⟨rfl, rfl, rfl⟩
  · simp only [hk, Bool.false_eq_true, if_neg, not_false_iff]
    set c1 : LoadingCache :=
      { c with evictList := c.evictList ++ [⟨k, v, now + c.ttl⟩],
               stat := { c.stat with added := c.stat.added + 1 } } with hc1
    have h1 : SameCfg c c1 := ⟨rfl, rfl, rfl⟩
    set c2 : LoadingCache := if c1.ttl ≠ noEvictionTTL then removeOldestIfExpired c1 now else c1
      with hc2
    have h2 : SameCfg c1 c2 := by
      rw [hc2]
      by_cases ht : c1.ttl ≠ noEvictionTTL
      · simpa [ht] using sameCfg_removeOldestIfExpired c1 now
      · simpa [ht] using sameCfg_refl c1
    have h12 : SameCfg c c2 := sameCfg_trans h1 h2
    by_cases hs : c2.maxKeys > 0 && c2.evictList.length > c2.maxKeys
    · simpa [hs] using sameCfg_trans h12 (sameCfg_removeOldest c2)
    · simpa [hs] using h12

theorem sameCfg_getOp (c : LoadingCache) (now : Int) (k : String) :
    SameCfg c (getOp c now k).2 := by
  unfold getOp
  cases findEntry c.evictList k with
  | some it =>
    by_cases hx : it.expiresAt < now
    · simp only [hx, if_pos]
      exact ⟨rfl, rfl, rfl⟩
    · by_cases hl : c.isLRU
      · simp only [hx, if_neg, hl, if_pos, not_false_iff]
        exact ⟨rfl, rfl, hl.symm⟩
      · have hl' : c.isLRU = false := by simpa using hl
        simp only [hx, if_neg, hl', Bool.false_eq_true, not_false_iff]
        exact ⟨rfl, rfl, hl'.symm⟩
  | none => exact ⟨rfl, rfl, rfl⟩

theorem sameCfg_peekOp (c : LoadingCache) (now : Int) (k : String) :
    SameCfg c (peekOp c now k).2 := by
  unfold peekOp
  cases findEntry c.evictList k with
  | some it =>
    by_cases hx : it.expiresAt < now
    · simp only [hx, if_pos]
      exact sameCfg_refl c
    · simp only [hx, if_neg, not_false_iff]
      exact sameCfg_refl c
  | none => exact sameCfg_refl c

theorem sameCfg_invalidate (c : LoadingCache) (k : String) :
    SameCfg c (invalidate c k) := by
  unfold invalidate
  by_cases hk : hasKey c.evictList k
  · simpa [hk] using sameCfg_removeElement c k
  · simpa [hk] using sameCfg_refl c

theorem sameCfg_invalidateFn (c : LoadingCache) (p : String → Bool) :
    SameCfg c (invalidateFn c p) :=
  ⟨rfl, rfl, rfl⟩

theorem sameCfg_deleteExpiredGo (now : Int) (c : LoadingCache) (ks : List String) :
    SameCfg c (deleteExpiredGo now c ks) := by
  induction ks generalizing c with
  | nil => exact sameCfg_refl c
  | cons k rest ih =>
    unfold deleteExpiredGo
    cases findEntry c.evictList k with
    | some it =>
      by_cases hx : it.expiresAt < now
      · simpa [hx] using sameCfg_trans (sameCfg_removeElement c k) (ih (removeElement c k))
      · by_cases hl : c.isLRU
        · simpa [hx, hl] using ih c
        · simpa [hx, hl] using sameCfg_refl c
    | none => exact ih c

theorem sameCfg_purge (c : LoadingCache) : SameCfg c (purge c) :=
  ⟨rfl, rfl, rfl⟩

/-- Reachable states carry the configuration they were built with. -/
theorem reach_cfg {ttl : Int} {mk : Nat} {lru : Bool} {c : LoadingCache} {t : Int}
    (h : Reach ttl mk lru c t) : c.ttl = ttl ∧ c.maxKeys = mk ∧ c.isLRU = lru := by
  induction h with
  | init t => exact ⟨rfl, rfl, rfl⟩
  | tick t' h hle ih => exact ih
  | set k v h ih =>
    obtain ⟨h1, h2, h3⟩ := sameCfg_setOp _ _ k v
    exact ⟨h1.trans ih.1, h2.trans ih.2.1, h3.trans ih.2.2⟩
  | get k h ih =>
    obtain ⟨h1, h2, h3⟩ := sameCfg_getOp _ _ k
    exact ⟨h1.trans ih.1, h2.trans ih.2.1, h3.trans ih.2.2⟩
  | peekStep k h ih =>
    obtain ⟨h1, h2, h3⟩ := sameCfg_peekOp _ _ k
    exact ⟨h1.trans ih.1, h2.trans ih.2.1, h3.trans ih.2.2⟩
  | inval k h ih =>
    obtain ⟨h1, h2, h3⟩ := sameCfg_invalidate _ k
    exact ⟨h1.trans ih.1, h2.trans ih.2.1, h3.trans ih.2.2⟩
  | invalFn p h ih =>
    obtain ⟨h1, h2, h3⟩ := sameCfg_invalidateFn _ p
    exact ⟨h1.trans ih.1, h2.trans ih.2.1, h3.trans ih.2.2⟩
  | remOld h ih =>
    obtain ⟨h1, h2, h3⟩ := sameCfg_removeOldest _
    exact ⟨h1.trans ih.1, h2.trans ih.2.1, h3.trans ih.2.2⟩
  | delExp h ih =>
    obtain ⟨h1, h2, h3⟩ := sameCfg_deleteExpiredGo _ _ _
    exact ⟨h1.trans ih.1, h2.trans ih.2.1, h3.trans ih.2.2⟩
  | purgeStep h ih =>
    obtain ⟨h1, h2, h3⟩ := sameCfg_purge _
    exact ⟨h1.trans ih.1, h2.trans ih.2.1, h3.trans ih.2.2⟩

/-! ### Invariant I3: keys are pairwise distinct in every reachable state -/

theorem removeElement_sublist (c : LoadingCache) (k : String) :
    List.Sublist (removeElement c k).evictList c.evictList :=
  eraseKey_sublist c.evictList k

theorem removeOldest_sublist (c : LoadingCache) :
    List.Sublist (removeOldest c).evictList c.evictList := by
  unfold removeOldest
  cases c.evictList.head? with
  | some it => exact removeElement_sublist c it.key
  | none => exact List.Sublist.refl _

theorem removeOldestIfExpired_sublist (c : LoadingCache) (now : Int) :
    List.Sublist (removeOldestIfExpired c now).evictList c.evictList := by
  unfold removeOldestIfExpired
  cases c.evictList.head? with
  | some it =>
    by_cases hx : it.expiresAt < now
    · simpa [hx] using removeElement_sublist c it.key
    · simp [hx]
  | none => exact List.Sublist.refl _

/-- Go `Peek` returns the receiver state unchanged. -/
theorem peekOp_state (c : LoadingCache) (now : Int) (k : String) :
    (peekOp c now k).2 = c := by
  unfold peekOp
  cases findEntry c.evictList k with
  | some it =>
    by_cases hx : it.expiresAt < now
    · simp [hx]
    · simp [hx]
  | none => simp

theorem nodup_setOp {c : LoadingCache} (now : Int) (k : String) (v : Nat)
    (h : NodupKeys c.evictList) : NodupKeys (setOp c now k v).evictList := by
  unfold setOp
  by_cases hk : hasKey c.evictList k
  · simp only [hk, if_pos]
    exact nodupKeys_eraseKey_append h rfl
  · simp only [hk, Bool.false_eq_true, if_neg, not_false_iff]
    set c1 : LoadingCache :=
      { c with evictList := c.evictList ++ [⟨k, v, now + c.ttl⟩],
               stat := { c.stat with added := c.stat.added + 1 } } with hc1
    have h1 : NodupKeys c1.evictList := by
      rw [hc1]
      exact nodupKeys_append_fresh h (by simpa using hk) rfl
    set c2 : LoadingCache := if c1.ttl ≠ noEvictionTTL then removeOldestIfExpired c1 now else c1
      with hc2
    have h2 : NodupKeys c2.evictList := by
      rw [hc2]
      by_cases ht : c1.ttl ≠ noEvictionTTL
      · simpa [ht] using nodupKeys_sublist (removeOldestIfExpired_sublist c1 now) h1
      · simpa [ht] using h1
    by_cases hs : c2.maxKeys > 0 && c2.evictList.length > c2.maxKeys
    · simpa [hs] using nodupKeys_sublist (removeOldest_sublist c2) h2
    · simpa [hs] using h2

theorem nodup_getOp {c : LoadingCache} (now : Int) (k : String)
    (h : NodupKeys c.evictList) : NodupKeys (getOp c now k).2.evictList := by
  unfold getOp
  cases hf : findEntry c.evictList k with
  | some it =>
    by_cases hx : it.expiresAt < now
    · simpa [hx] using h
    · by_cases hl : c.isLRU
      · simp only [hx, if_neg, hl, if_pos, not_false_iff]
        exact nodupKeys_eraseKey_append h (findEntry_some_key hf)
      · have hl' : c.isLRU = false := by simpa using hl
        simpa [hx, hl'] using h
  | none => simpa using h

theorem nodup_deleteExpiredGo {c : LoadingCache} (now : Int) (ks : List String)
    (h : NodupKeys c.evictList) : NodupKeys (deleteExpiredGo now c ks).evictList := by
  induction ks generalizing c with
  | nil => exact h
  | cons k rest ih =>
    unfold deleteExpiredGo
    cases hf : findEntry c.evictList k with
    | some it =>
      by_cases hx : it.expiresAt < now
      · simpa [hx] using ih (nodupKeys_sublist (removeElement_sublist c k) h)
      · by_cases hl : c.isLRU
        · simpa [hx, hl] using ih h
        · have hl' : c.isLRU = false := by simpa using hl
          simpa [hx, hl'] using h
    | none => exact ih h

theorem nodup_invalidate {c : LoadingCache} (k : String)
    (h : NodupKeys c.evictList) : NodupKeys (invalidate c k).evictList := by
  unfold invalidate
  by_cases hk : hasKey c.evictList k
  · simpa [hk] using nodupKeys_sublist (removeElement_sublist c k) h
  · simpa [hk] using h

/-- Every reachable state satisfies invariant I3: no two entries of the
recency list share a key. -/
theorem reach_nodup {ttl : Int} {mk : Nat} {lru : Bool} {c : LoadingCache} {t : Int}
    (h : Reach ttl mk lru c t) : NodupKeys c.evictList := by
  induction h with
  | init t => simp [newLoadingCache, NodupKeys, keysOf]
  | tick t' h hle ih => exact ih
  | set k v h ih => exact nodup_setOp _ k v ih
  | get k h ih => exact nodup_getOp _ k ih
  | peekStep k h ih => exact (peekOp_state _ _ k) ▸ ih
  | inval k h ih => exact nodup_invalidate k ih
  | invalFn p h ih =>
    exact nodupKeys_sublist (by simp [invalidateFn, List.filter_sublist]) ih
  | remOld h ih => exact nodupKeys_sublist (removeOldest_sublist _) ih
  | delExp h ih => exact nodup_deleteExpiredGo _ _ ih
  | purgeStep h ih => simp [purge, NodupKeys, keysOf]

/-! ### Characterizing back-node removal -/

theorem removeOldest_nil {c : LoadingCache} (hl : c.evictList = []) :
    removeOldest c = c := by
  simp [removeOldest, hl]

theorem removeOldest_cons {c : LoadingCache} {a : CacheItem} {rest : List CacheItem}
    (hl : c.evictList = a :: rest) :
    removeOldest c =
      { c with evictList := rest,
               stat := { c.stat with evicted := c.stat.evicted + 1 } } := by
  simp [removeOldest, hl, removeElement, eraseKey]

theorem removeOldestIfExpired_nil {c : LoadingCache} (hl : c.evictList = []) (now : Int) :
    removeOldestIfExpired c now = c := by
  simp [removeOldestIfExpired, hl]

theorem removeOldestIfExpired_cons {c : LoadingCache} {a : CacheItem} {rest : List CacheItem}
    (hl : c.evictList = a :: rest) (now : Int) :
    removeOldestIfExpired c now =
      if a.expiresAt < now then
        { c with evictList := rest,
                 stat := { c.stat with evicted := c.stat.evicted + 1 } }
      else c := by
  by_cases hx : a.expiresAt < now
  · simp [removeOldestIfExpired, hl, hx, removeElement, eraseKey]
  · simp [removeOldestIfExpired, hl, hx]

/-! ### Invariant I5: `added = evicted + size` in every reachable state -/

/-- The counter equation of invariant I5. -/
def Counts (c : LoadingCache) : Prop :=
  c.stat.added = c.stat.evicted + c.evictList.length

theorem counts_removeElement {c : LoadingCache} {k : String}
    (hk : hasKey c.evictList k = true) (h : Counts c) : Counts (removeElement c k) := by
  have hlen := length_eraseKey hk
  unfold Counts removeElement at *
  simp only []
  omega

theorem counts_removeOldest {c : LoadingCache} (h : Counts c) : Counts (removeOldest c) := by
  cases hl : c.evictList with
  | nil => rw [removeOldest_nil hl]; exact h
  | cons a rest =>
    rw [removeOldest_cons hl]
    unfold Counts at *
    rw [hl] at h
    simp only [List.length_cons] at h ⊢
    omega

theorem counts_removeOldestIfExpired {c : LoadingCache} (now : Int)
    (h : Counts c) : Counts (removeOldestIfExpired c now) := by
  cases hl : c.evictList with
  | nil => rw [removeOldestIfExpired_nil hl]; exact h
  | cons a rest =>
    rw [removeOldestIfExpired_cons hl]
    by_cases hx : a.expiresAt < now
    · simp only [hx, if_pos]
      unfold Counts at *
      rw [hl] at h
      simp only [List.length_cons] at h ⊢
      omega
    · simpa [hx] using h

theorem counts_setOp {c : LoadingCache} (now : Int) (k : String) (v : Nat)
    (h : Counts c) : Counts (setOp c now k v) := by
  unfold setOp
  by_cases hk : hasKey c.evictList k
  · have hlen := length_eraseKey hk
    simp only [hk, if_pos]
    unfold Counts at *
    simp only [List.length_append, List.length_cons, List.length_nil]
    omega
  · simp only [hk, Bool.false_eq_true, if_neg, not_false_iff]
    set c1 : LoadingCache :=
      { c with evictList := c.evictList ++ [⟨k, v, now + c.ttl⟩],
               stat := { c.stat with added := c.stat.added + 1 } } with hc1
    have h1 : Counts c1 := by
      unfold Counts at *
      rw [hc1]
      simp only [List.length_append, List.length_cons, List.length_nil]
      omega
    set c2 : LoadingCache := if c1.ttl ≠ noEvictionTTL then removeOldestIfExpired c1 now else c1
      with hc2
    have h2 : Counts c2 := by
      rw [hc2]
      by_cases ht : c1.ttl ≠ noEvictionTTL
      · simpa [ht] using counts_removeOldestIfExpired now h1
      · simpa [ht] using h1
    by_cases hs : c2.maxKeys > 0 && c2.evictList.length > c2.maxKeys
    · simpa [hs] using counts_removeOldest h2
    · simpa [hs] using h2

theorem counts_getOp {c : LoadingCache} (now : Int) (k : String)
    (h : Counts c) : Counts (getOp c now k).2 := by
  unfold getOp
  cases hf : findEntry c.evictList k with
  | some it =>
    by_cases hx : it.expiresAt < now
    · simp only [hx, if_pos]
      unfold Counts at *
      simpa using h
    · by_cases hl : c.isLRU
      · have hlen := length_eraseKey (show hasKey c.evictList k from by simp [hasKey, hf])
        simp only [hx, if_neg, hl, if_pos, not_false_iff]
        unfold Counts at *
        simp only [List.length_append, List.length_cons, List.length_nil]
        omega
      · have hl' : c.isLRU = false := by simpa using hl
        simp only [hx, if_neg, hl', Bool.false_eq_true, not_false_iff]
        unfold Counts at *
        simpa using h
  | none =>
    unfold Counts at *
    simpa using h

theorem counts_invalidate {c : LoadingCache} (k : String)
    (h : Counts c) : Counts (invalidate c k) := by
  unfold invalidate
  by_cases hk : hasKey c.evictList k
  · simpa [hk] using counts_removeElement hk h
  · simpa [hk] using h

theorem counts_invalidateFn {c : LoadingCache} (p : String → Bool)
    (h : Counts c) : Counts (invalidateFn c p) := by
  have hsplit : c.evictList.length = _ :=
    List.length_eq_length_filter_add (fun it => p it.key)
  unfold Counts invalidateFn at *
  simp only []
  have : (c.evictList.filter (fun it => !(p it.key))).length
      = (c.evictList.filter (! (fun it => p it.key) ·)).length := rfl
  omega

theorem counts_deleteExpiredGo {c : LoadingCache} (now : Int) (ks : List String)
    (h : Counts c) : Counts (deleteExpiredGo now c ks) := by
  induction ks generalizing c with
  | nil => exact h
  | cons k rest ih =>
    unfold deleteExpiredGo
    cases hf : findEntry c.evictList k with
    | some it =>
      by_cases hx : it.expiresAt < now
      · simpa [hx] using ih (counts_removeElement (by simp [hasKey, hf]) h)
      · by_cases hl : c.isLRU
        · simpa [hx, hl] using ih h
        · have hl' : c.isLRU = false := by simpa using hl
          simpa [hx, hl'] using h
    | none => exact ih h

theorem counts_purge {c : LoadingCache} (h : Counts c) : Counts (purge c) := by
  unfold Counts purge at *
  simp only [List.length_nil]
  omega

/-- Invariant I5 holds in every reachable state. -/
theorem reach_counts {ttl : Int} {mk : Nat} {lru : Bool} {c : LoadingCache} {t : Int}
    (h : Reach ttl mk lru c t) : Counts c := by
  induction h with
  | init t => simp [Counts, newLoadingCache]
  | tick t' h hle ih => exact ih
  | set k v h ih => exact counts_setOp _ k v ih
  | get k h ih => exact counts_getOp _ k ih
  | peekStep k h ih => exact (peekOp_state _ _ k) ▸ ih
  | inval k h ih => exact counts_invalidate k ih
  | invalFn p h ih => exact counts_invalidateFn p ih
  | remOld h ih => exact counts_removeOldest ih
  | delExp h ih => exact counts_deleteExpiredGo _ _ ih
  | purgeStep h ih => exact counts_purge ih

/-! ### Size invariant: `MaxKeys > 0` caps the length in reachable states -/

theorem len_getOp_le (c : LoadingCache) (now : Int) (k : String) :
    (getOp c now k).2.evictList.length ≤ c.evictList.length := by
  unfold getOp
  cases hf : findEntry c.evictList k with
  | some it =>
    by_cases hx : it.expiresAt < now
    · simp [hx]
    · by_cases hl : c.isLRU
      · have hlen := length_eraseKey (show hasKey c.evictList k from by simp [hasKey, hf])
        simp only [hx, if_neg, hl, if_pos, not_false_iff]
        simp only [List.length_append, List.length_cons, List.length_nil]
        omega
      · have hl' : c.isLRU = false := by simpa using hl
        simp [hx, hl']
  | none => simp

theorem invalidate_sublist (c : LoadingCache) (k : String) :
    List.Sublist (invalidate c k).evictList c.evictList := by
  unfold invalidate
  by_cases hk : hasKey c.evictList k
  · simpa [hk] using removeElement_sublist c k
  · simp [hk]

theorem deleteExpiredGo_sublist (now : Int) (c : LoadingCache) (ks : List String) :
    List.Sublist (deleteExpiredGo now c ks).evictList c.evictList := by
  induction ks generalizing c with
  | nil => exact List.Sublist.refl _
  | cons k rest ih =>
    unfold deleteExpiredGo
    cases hf : findEntry c.evictList k with
    | some it =>
      by_cases hx : it.expiresAt < now
      · simpa [hx] using List.Sublist.trans (ih (removeElement c k)) (removeElement_sublist c k)
      · by_cases hl : c.isLRU
        · simpa [hx, hl] using ih c
        · have hl' : c.isLRU = false := by simpa using hl
          simp [hx, hl']
    | none => exact ih c

theorem len_setOp_le {c : LoadingCache} {now : Int} (k : String) (v : Nat)
    (hmk : 0 < c.maxKeys) (h : c.evictList.length ≤ c.maxKeys) :
    (setOp c now k v).evictList.length ≤ c.maxKeys := by
  unfold setOp
  by_cases hk : hasKey c.evictList k
  · have hlen := length_eraseKey hk
    simp only [hk, if_pos]
    simp only [List.length_append, List.length_cons, List.length_nil]
    omega
  · simp only [hk, Bool.false_eq_true, if_neg, not_false_iff]
    set c1 : LoadingCache :=
      { c with evictList := c.evictList ++ [⟨k, v, now + c.ttl⟩],
               stat := { c.stat with added := c.stat.added + 1 } } with hc1
    have h1 : c1.evictList.length ≤ c.maxKeys + 1 := by
      rw [hc1]
      simp only [List.length_append, List.length_cons, List.length_nil]
      omega
    set c2 : LoadingCache := if c1.ttl ≠ noEvictionTTL then removeOldestIfExpired c1 now else c1
      with hc2
    have h2 : c2.evictList.length ≤ c.maxKeys + 1 := by
      rw [hc2]
      by_cases ht : c1.ttl ≠ noEvictionTTL
      · rw [if_pos ht]
        exact le_trans (List.Sublist.length_le (removeOldestIfExpired_sublist c1 now)) h1
      · rw [if_neg ht]
        exact h1
    have hcfg2 : c2.maxKeys = c.maxKeys := by
      have e1 : SameCfg c c1 := ⟨rfl, rfl, rfl⟩
      have e2 : SameCfg c1 c2 := by
        rw [hc2]
        by_cases ht : c1.ttl ≠ noEvictionTTL
        · simpa [ht] using sameCfg_removeOldestIfExpired c1 now
        · simpa [ht] using sameCfg_refl c1
      exact (sameCfg_trans e1 e2).2.1
    by_cases hs : c2.maxKeys > 0 && c2.evictList.length > c2.maxKeys
    · simp only [hs, if_pos]
      cases hl2 : c2.evictList with
      | nil =>
        rw [removeOldest_nil hl2]
        simp [hl2]
      | cons a rest =>
        rw [removeOldest_cons hl2]
        have := (Bool.and_eq_true _ _).mp hs
        have hgt : c2.evictList.length > c2.maxKeys := by
          simpa using this.2
        rw [hl2] at hgt h2
        simp only [List.length_cons] at hgt h2 ⊢
        rw [hcfg2] at hgt
        omega
    · simp only [hs, if_neg, not_false_iff, Bool.not_eq_true]
      have : ¬(c2.maxKeys > 0 ∧ c2.evictList.length > c2.maxKeys) := by
        intro hcon
        exact hs ((Bool.and_eq_true _ _).mpr ⟨by simpa using hcon.1, by simpa using hcon.2⟩)
      rw [hcfg2] at this
      push_neg at this
      rcases Nat.eq_zero_or_pos c.maxKeys with hz | hp
      · omega
      · have := this hp
        omega

/-- In every reachable state of a cache with a positive size cap, the
number of entries never exceeds the cap. -/
theorem reach_len {ttl : Int} {mk : Nat} {lru : Bool} {c : LoadingCache} {t : Int}
    (h : Reach ttl mk lru c t) (hmk : 0 < mk) : c.evictList.length ≤ mk := by
  induction h with
  | init t => simp [newLoadingCache]
  | tick t' h hle ih => exact ih
  | set k v h ih =>
    have hcfg := (reach_cfg h).2.1
    rw [← hcfg]
    exact len_setOp_le k v (by rw [hcfg]; exact hmk) (by rw [hcfg]; exact ih)
  | get k h ih => exact le_trans (len_getOp_le _ _ k) ih
  | peekStep k h ih => exact (peekOp_state _ _ k) ▸ ih
  | inval k h ih => exact le_trans (List.Sublist.length_le (invalidate_sublist _ k)) ih
  | invalFn p h ih =>
    refine le_trans ?_ ih
    simpa [invalidateFn] using List.Sublist.length_le (List.filter_sublist _)
  | remOld h ih => exact le_trans (List.Sublist.length_le (removeOldest_sublist _)) ih
  | delExp h ih =>
    refine le_trans (List.Sublist.length_le ?_) ih
    exact deleteExpiredGo_sublist _ _ _
  | purgeStep h ih => simp [purge]


/-! ### Invariant I4 machinery: expiry bounds and back-to-front order -/

/-- Back-to-front (oldest-first) order is non-decreasing in `expiresAt`. -/
def SortedExp (l : List CacheItem) : Prop :=
  l.Pairwise (fun a b => a.expiresAt ≤ b.expiresAt)

theorem sortedExp_sublist {l₁ l₂ : List CacheItem}
    (hs : List.Sublist l₁ l₂) (h : SortedExp l₂) : SortedExp l₁ :=
  List.Pairwise.sublist hs h

theorem sortedExp_append_fresh {l : List CacheItem} {it : CacheItem}
    (h : SortedExp l) (hb : ∀ x ∈ l, x.expiresAt ≤ it.expiresAt) :
    SortedExp (l ++ [it]) := by
  refine (List.pairwise_append).mpr ⟨h, by simp [SortedExp], ?_⟩
  intro a ha b hb'
  rcases List.mem_singleton.mp hb' with rfl
  exact hb a ha

theorem invalidateFn_sublist (c : LoadingCache) (p : String → Bool) :
    List.Sublist (invalidateFn c p).evictList c.evictList := by
  simp [invalidateFn, List.filter_sublist]

/-- Writes keep the list sorted oldest-first by expiry, provided every
present entry expires no later than the entry being written. -/
theorem sorted_setOp {c : LoadingCache} {now : Int} (k : String) (v : Nat)
    (hs : SortedExp c.evictList)
    (hb : ∀ x ∈ c.evictList, x.expiresAt ≤ now + c.ttl) :
    SortedExp (setOp c now k v).evictList := by
  unfold setOp
  by_cases hk : hasKey c.evictList k
  · simp only [hk, if_pos]
    refine sortedExp_append_fresh (sortedExp_sublist (eraseKey_sublist _ k) hs) ?_
    intro x hx
    exact hb x ((eraseKey_sublist _ k).subset hx)
  · simp only [hk, Bool.false_eq_true, if_neg, not_false_iff]
    set c1 : LoadingCache :=
      { c with evictList := c.evictList ++ [⟨k, v, now + c.ttl⟩],
               stat := { c.stat with added := c.stat.added + 1 } } with hc1
    have h1 : SortedExp c1.evictList := by
      rw [hc1]
      exact sortedExp_append_fresh hs hb
    set c2 : LoadingCache := if c1.ttl ≠ noEvictionTTL then removeOldestIfExpired c1 now else c1
      with hc2
    have h2 : SortedExp c2.evictList := by
      rw [hc2]
      by_cases ht : c1.ttl ≠ noEvictionTTL
      · rw [if_pos ht]
        exact sortedExp_sublist (removeOldestIfExpired_sublist c1 now) h1
      · rwa [if_neg ht]
    by_cases hsz : c2.maxKeys > 0 && c2.evictList.length > c2.maxKeys
    · rw [if_pos hsz]
      exact sortedExp_sublist (removeOldest_sublist c2) h2
    · rwa [if_neg hsz]

theorem mem_setOp {c : LoadingCache} {now : Int} {k : String} {v : Nat} {x : CacheItem}
    (hx : x ∈ (setOp c now k v).evictList) :
    x ∈ c.evictList ∨ x = ⟨k, v, now + c.ttl⟩ := by
  unfold setOp at hx
  by_cases hk : hasKey c.evictList k
  · simp only [hk, if_pos] at hx
    rcases List.mem_append.mp hx with hl | hr
    · exact Or.inl ((eraseKey_sublist c.evictList k).subset hl)
    · exact Or.inr (List.mem_singleton.mp hr)
  · simp only [hk, Bool.false_eq_true, if_neg, not_false_iff] at hx
    set c1 : LoadingCache :=
      { c with evictList := c.evictList ++ [⟨k, v, now + c.ttl⟩],
               stat := { c.stat with added := c.stat.added + 1 } } with hc1
    set c2 : LoadingCache := if c1.ttl ≠ noEvictionTTL then removeOldestIfExpired c1 now else c1
      with hc2
    have hx2 : x ∈ c2.evictList := by
      by_cases hs : c2.maxKeys > 0 && c2.evictList.length > c2.maxKeys
      · rw [if_pos hs] at hx
        exact (removeOldest_sublist c2).subset hx
      · rwa [if_neg hs] at hx
    have hx1 : x ∈ c1.evictList := by
      rw [hc2] at hx2
      by_cases ht : c1.ttl ≠ noEvictionTTL
      · rw [if_pos ht] at hx2
        exact (removeOldestIfExpired_sublist c1 now).subset hx2
      · rwa [if_neg ht] at hx2
    rw [hc1] at hx1
    simp only [List.mem_append, List.mem_singleton] at hx1
    exact hx1

theorem getOp_list_of_notLRU {c : LoadingCache} (now : Int) (k : String)
    (hl : c.isLRU = false) : (getOp c now k).2.evictList = c.evictList := by
  unfold getOp
  cases hf : findEntry c.evictList k with
  | some it =>
    by_cases hx : it.expiresAt < now
    · simp [hx]
    · simp [hx, hl]
  | none => simp

theorem mem_getOp {c : LoadingCache} {now : Int} {k : String} {x : CacheItem}
    (hx : x ∈ (getOp c now k).2.evictList) : x ∈ c.evictList := by
  unfold getOp at hx
  cases hf : findEntry c.evictList k with
  | some it =>
    rw [hf] at hx
    by_cases hxp : it.expiresAt < now
    · simpa [hxp] using hx
    · by_cases hl : c.isLRU
      · simp only [hxp, if_neg, hl, if_pos, not_false_iff] at hx
        rcases List.mem_append.mp hx with h1 | h2
        · exact (eraseKey_sublist c.evictList k).subset h1
        · rcases List.mem_singleton.mp h2 with rfl
          exact findEntry_mem hf
      · have hl' : c.isLRU = false := by simpa using hl
        simpa [hxp, hl'] using hx
  | none =>
    rw [hf] at hx
    simpa using hx

/-- In every reachable state no entry expires later than `t + ttl`. -/
theorem reach_bounds {ttl : Int} {mk : Nat} {lru : Bool} {c : LoadingCache} {t : Int}
    (h : Reach ttl mk lru c t) : ∀ x ∈ c.evictList, x.expiresAt ≤ t + ttl := by
  induction h with
  | init t => simp [newLoadingCache]
  | tick t' h hle ih =>
    intro x hx
    exact le_trans (ih x hx) (by omega)
  | set k v h ih =>
    intro x hx
    rcases mem_setOp hx with hold | hnew
    · exact ih x hold
    · rw [hnew]
      simp only []
      rw [(reach_cfg h).1]
  | get k h ih =>
    intro x hx
    exact ih x (mem_getOp hx)
  | peekStep k h ih => exact (peekOp_state _ _ k) ▸ ih
  | inval k h ih =>
    intro x hx
    exact ih x ((invalidate_sublist _ k).subset hx)
  | invalFn p h ih =>
    intro x hx
    exact ih x ((invalidateFn_sublist _ p).subset hx)
  | remOld h ih =>
    intro x hx
    exact ih x ((removeOldest_sublist _).subset hx)
  | delExp h ih =>
    intro x hx
    exact ih x ((deleteExpiredGo_sublist _ _ _).subset hx)
  | purgeStep h ih => simp [purge]

/-- Invariant I4: in LRC mode every reachable list is sorted oldest-first
by expiration instant. -/
theorem reach_sorted {ttl : Int} {mk : Nat} {c : LoadingCache} {t : Int}
    (h : Reach ttl mk false c t) : SortedExp c.evictList := by
  induction h with
  | init t => simp [newLoadingCache, SortedExp]
  | tick t' h hle ih => exact ih
  | set k v h ih =>
    have hbound := reach_bounds h
    have httl := (reach_cfg h).1
    refine sorted_setOp k v ih ?_
    intro x hx
    rw [httl]
    exact hbound x hx
  | get k h ih =>
    have hlru := (reach_cfg h).2.2
    rw [getOp_list_of_notLRU _ k hlru]
    exact ih
  | peekStep k h ih => exact (peekOp_state _ _ k) ▸ ih
  | inval k h ih => exact sortedExp_sublist (invalidate_sublist _ k) ih
  | invalFn p h ih => exact sortedExp_sublist (invalidateFn_sublist _ p) ih
  | remOld h ih => exact sortedExp_sublist (removeOldest_sublist _) ih
  | delExp h ih => exact sortedExp_sublist (deleteExpiredGo_sublist _ _ _) ih
  | purgeStep h ih => simp [purge, SortedExp]

/-! ### Correctness of `DeleteExpired` -/

theorem key_ne_of_mem_eraseKey {l : List CacheItem} {k : String} {x : CacheItem}
    (hnd : NodupKeys l) (hx : x ∈ eraseKey l k) : x.key ≠ k := by
  rw [eraseKey_eq_filter hnd] at hx
  have := (List.mem_filter.mp hx).2
  simpa using this

/-- In LRU mode the scan visits every snapshot key, so after the loop all
surviving entries whose keys were on the snapshot are live. -/
theorem deleteExpiredGo_lru {now : Int} {ks : List String} {c : LoadingCache}
    (hlru : c.isLRU = true) (hnd : NodupKeys c.evictList)
    (hcov : ∀ it ∈ c.evictList, it.key ∈ ks ∨ ¬(it.expiresAt < now)) :
    ∀ it ∈ (deleteExpiredGo now c ks).evictList, ¬(it.expiresAt < now) := by
  induction ks generalizing c with
  | nil =>
    intro it hm
    rcases hcov it hm with hk | hl
    · simp at hk
    · exact hl
  | cons k rest ih =>
    unfold deleteExpiredGo
    cases hf : findEntry c.evictList k with
    | some j =>
      by_cases hx : j.expiresAt < now
      · simp only [hx, if_pos]
        refine ih hlru (nodupKeys_sublist (removeElement_sublist c k) hnd) ?_
        intro it hm
        have hm' : it ∈ c.evictList := (removeElement_sublist c k).subset hm
        rcases hcov it hm' with hkk | hl
        · rcases List.mem_cons.mp hkk with he | ht
          · exact absurd he (key_ne_of_mem_eraseKey hnd hm)
          · exact Or.inl ht
        · exact Or.inr hl
      · simp only [hx, if_neg, hlru, if_pos, not_false_iff]
        refine ih hlru hnd ?_
        intro it hm
        rcases hcov it hm with hkk | hl
        · rcases List.mem_cons.mp hkk with he | ht
          · have : it = j := keyUnique hnd hm (findEntry_mem hf) (he.trans (findEntry_some_key hf).symm)
            exact Or.inr (this ▸ hx)
          · exact Or.inl ht
        · exact Or.inr hl
    | none =>
      refine ih hlru hnd ?_
      intro it hm
      rcases hcov it hm with hkk | hl
      · rcases List.mem_cons.mp hkk with he | ht
        · exact absurd he (findEntry_eq_none hf it hm)
        · exact Or.inl ht
      · exact Or.inr hl

/-- In LRC mode the list is scanned oldest-first in step with its own key
snapshot; sortedness justifies the early exit at the first live node. -/
theorem deleteExpiredGo_lrc {now : Int} {ks : List String} {c : LoadingCache}
    (hlru : c.isLRU = false) (hnd : NodupKeys c.evictList)
    (hsort : SortedExp c.evictList) (halign : keysOf c.evictList = ks) :
    ∀ it ∈ (deleteExpiredGo now c ks).evictList, ¬(it.expiresAt < now) := by
  induction ks generalizing c with
  | nil =>
    intro it hm
    have hempty : c.evictList = [] := by
      simpa [keysOf, List.map_eq_nil_iff] using halign
    simp only [deleteExpiredGo, hempty] at hm
    simp at hm
  | cons k rest ih =>
    cases hl : c.evictList with
    | nil => rw [hl] at halign; simp [keysOf] at halign
    | cons a l' =>
      rw [hl] at halign
      simp only [keysOf, List.map_cons, List.cons.injEq] at halign
      obtain ⟨hak, hrest⟩ := halign
      have hf : findEntry c.evictList k = some a := by
        rw [hl]
        simp [findEntry, hak]
      unfold deleteExpiredGo
      rw [hf]
      by_cases hx : a.expiresAt < now
      · simp only [hx, if_pos]
        have hlist : (removeElement c k).evictList = l' := by
          simp only [removeElement]
          rw [hl]
          simp [eraseKey, hak]
        refine ih hlru ?_ ?_ ?_
        · rw [hlist]
          exact (nodupKeys_cons.mp (hl ▸ hnd)).2
        · rw [hlist]
          exact (List.pairwise_cons.mp (hl ▸ hsort)).2
        · rw [hlist]
          exact hrest
      · simp only [hx, if_neg, hlru, Bool.false_eq_true, not_false_iff]
        intro it hm
        rw [hl] at hm
        rcases List.mem_cons.mp hm with he | ht
        · exact he ▸ hx
        · have hle : a.expiresAt ≤ it.expiresAt :=
            (List.pairwise_cons.mp (hl ▸ hsort)).1 it ht
          omega

/-- After `DeleteExpired` runs on a de-duplicated cache whose list is
sorted when in LRC mode, every surviving entry is live. -/
theorem deleteExpired_live {c : LoadingCache} (now : Int)
    (hnd : NodupKeys c.evictList)
    (hsort : c.isLRU = false → SortedExp c.evictList) :
    ∀ it ∈ (deleteExpired c now).evictList, now ≤ it.expiresAt := by
  have key : ∀ it ∈ (deleteExpired c now).evictList, ¬(it.expiresAt < now) := by
    unfold deleteExpired
    cases hlru : c.isLRU with
    | true =>
      refine deleteExpiredGo_lru hlru hnd ?_
      intro it hm
      exact Or.inl (List.mem_map.mpr ⟨it, hm, rfl⟩)
    | false => exact deleteExpiredGo_lrc hlru hnd (hsort hlru) rfl
  intro it hm
  have := key it hm
  omega

/-- A live entry is never removed by the `DeleteExpired` scan. -/
theorem mem_deleteExpiredGo_of_live {now : Int} {ks : List String} {c : LoadingCache}
    {it : CacheItem} (hnd : NodupKeys c.evictList) (hm : it ∈ c.evictList)
    (hlive : ¬(it.expiresAt < now)) :
    it ∈ (deleteExpiredGo now c ks).evictList := by
  induction ks generalizing c with
  | nil => exact hm
  | cons k rest ih =>
    unfold deleteExpiredGo
    cases hf : findEntry c.evictList k with
    | some j =>
      by_cases hx : j.expiresAt < now
      · simp only [hx, if_pos]
        refine ih (nodupKeys_sublist (removeElement_sublist c k) hnd) ?_
        have hne : it.key ≠ k := by
          intro he
          have : it = j := keyUnique hnd hm (findEntry_mem hf) (he.trans (findEntry_some_key hf).symm)
          exact hlive (this ▸ hx)
        exact mem_eraseKey_of_ne hm hne
      · by_cases hlru : c.isLRU
        · simp only [hx, if_neg, hlru, if_pos, not_false_iff]
          exact ih hnd hm
        · have hlru' : c.isLRU = false := by simpa using hlru
          simp only [hx, if_neg, hlru', Bool.false_eq_true, not_false_iff]
          exact hm
    | none => exact ih hnd hm

/-! ### The legacy generic adapter over the v3 core -/

/-- Modelled from the spec: the v3 core cache (`v3.Cache`) is not under
`src/` — only the v2 adapter wrapping it is.  Per the spec, the newest
public surface behaves like the loading cache except that `Get` on an
expired-but-present key returns `(stored_value, false)`, surfacing the
stored value alongside the absent flag, and on an absent key returns the
zero value with `false`.  Values are instantiated at `Nat`, whose zero
value is `0`. -/
def v3Get (c : LoadingCache) (now : Int) (k : String) : (Nat × Bool) × LoadingCache :=
  match findEntry c.evictList k with
  | some it =>
    if it.expiresAt < now then
      ((it.value, false), { c with stat := { c.stat with misses := c.stat.misses + 1 } })
    else
      let c1 : LoadingCache :=
        if c.isLRU then { c with evictList := eraseKey c.evictList k ++ [it] } else c
      ((it.value, true), { c1 with stat := { c1.stat with hits := c1.stat.hits + 1 } })
  | none => ((0, false), { c with stat := { c.stat with misses := c.stat.misses + 1 } })

/-- Modelled from the spec: the v3 core `Peek`, like `v3Get` but touching
neither recency nor counters. -/
def v3Peek (c : LoadingCache) (now : Int) (k : String) : (Nat × Bool) × LoadingCache :=
  match findEntry c.evictList k with
  | some it =>
    if it.expiresAt < now then ((it.value, false), c) else ((it.value, true), c)
  | none => ((0, false), c)

/-- Go `cacheImpl.Get` (the v2 legacy adapter): forward to the core and
substitute the zero value whenever the core's flag is `false`. -/
def cacheV2Get (c : LoadingCache) (now : Int) (k : String) : (Nat × Bool) × LoadingCache :=
  let r := v3Get c now k
  if !r.1.2 then ((0, false), r.2) else r

/-- Go `cacheImpl.Peek` (the v2 legacy adapter): same masking as `Get`. -/
def cacheV2Peek (c : LoadingCache) (now : Int) (k : String) : (Nat × Bool) × LoadingCache :=
  let r := v3Peek c now k
  if !r.1.2 then ((0, false), r.2) else r

/-! ### Characterizing the fresh-key path of `Set` -/

/-- The Go trim test of `removeOldestIfExpired`: there is a back node and
it is expired. -/
def backExpired (l : List CacheItem) (now : Int) : Bool :=
  match l.head? with
  | some b => decide (b.expiresAt < now)
  | none => false

/-- A `Set` of a fresh key leaves the freshly created node at the front of
the list, whatever trimming and size eviction did to the rest. -/
theorem setOp_fresh_form {c : LoadingCache} {now : Int} {k : String} {v : Nat}
    (hfresh : hasKey c.evictList k = false) (httl0 : 0 ≤ c.ttl) :
    ∃ l2, (setOp c now k v).evictList = l2 ++ [⟨k, v, now + c.ttl⟩] := by
  unfold setOp
  simp only [hfresh, Bool.false_eq_true, if_neg, not_false_iff]
  set f : CacheItem := ⟨k, v, now + c.ttl⟩ with hf
  set c1 : LoadingCache :=
    { c with evictList := c.evictList ++ [f],
             stat := { c.stat with added := c.stat.added + 1 } } with hc1
  have h1 : ∃ l1, c1.evictList = l1 ++ [f] := ⟨c.evictList, by rw [hc1]⟩
  set c2 : LoadingCache := if c1.ttl ≠ noEvictionTTL then removeOldestIfExpired c1 now else c1
    with hc2
  have h2 : ∃ l2, c2.evictList = l2 ++ [f] := by
    rw [hc2]
    by_cases ht : c1.ttl ≠ noEvictionTTL
    · rw [if_pos ht]
      cases hl : c.evictList with
      | nil =>
        have hl1 : c1.evictList = f :: [] := by rw [hc1, hl]; rfl
        rw [removeOldestIfExpired_cons hl1 now]
        have hnx : ¬(f.expiresAt < now) := by
          rw [hf]
          simp only []
          omega
        rw [if_neg hnx]
        exact ⟨c.evictList, by rw [hc1]⟩
      | cons a l' =>
        have hl1 : c1.evictList = a :: (l' ++ [f]) := by rw [hc1, hl]; rfl
        rw [removeOldestIfExpired_cons hl1 now]
        by_cases hx : a.expiresAt < now
        · rw [if_pos hx]
          exact ⟨l', rfl⟩
        · rw [if_neg hx]
          exact ⟨c.evictList, by rw [hc1]⟩
    · rw [if_neg ht]
      exact h1
  obtain ⟨l2, hl2⟩ := h2
  by_cases hs : c2.maxKeys > 0 && c2.evictList.length > c2.maxKeys
  · rw [if_pos hs]
    cases hl2' : l2 with
    | nil =>
      exfalso
      have := (Bool.and_eq_true _ _).mp hs
      have hlen : c2.evictList.length = 1 := by
        rw [hl2, hl2']
        rfl
      have h1' : c2.maxKeys > 0 := by simpa using this.1
      have h2' : c2.evictList.length > c2.maxKeys := by simpa using this.2
      omega
    | cons b l2' =>
      have hcl : c2.evictList = b :: (l2' ++ [f]) := by
        rw [hl2, hl2']
        rfl
      rw [removeOldest_cons hcl]
      exact ⟨l2', rfl⟩
  · rw [if_neg hs]
    exact ⟨l2, hl2⟩

/-- The recency list right after a fresh insert and the opportunistic
back trim: the back node is dropped precisely when it is expired, and the
freshly created node sits at the front. -/
def trimInsert (l : List CacheItem) (now : Int) (f : CacheItem) : List CacheItem :=
  (if backExpired l now then l.tail else l) ++ [f]

/-- Only a `Set` that inserts a fresh key performs the opportunistic
expiry trim.  With a configured TTL it inspects exactly the one back
node, removing it precisely when expired — at most one node, never
draining further expired entries (`trimInsert`) — after which the
separate size enforcement removes at most one more back node when the
cap is exceeded.  A `Set` on an already-present key returns on the
update path without inspecting the back node: it only reorders the list
and leaves every counter unchanged. -/
theorem setOp_fresh_trim {c : LoadingCache} {now : Int} (k : String) (v : Nat)
    (httl : c.ttl ≠ noEvictionTTL) (httl0 : 0 ≤ c.ttl) :
    (hasKey c.evictList k = false →
      ((setOp c now k v).evictList =
        if c.maxKeys > 0
            && (trimInsert c.evictList now ⟨k, v, now + c.ttl⟩).length > c.maxKeys
        then (trimInsert c.evictList now ⟨k, v, now + c.ttl⟩).tail
        else trimInsert c.evictList now ⟨k, v, now + c.ttl⟩)
      ∧ ((setOp c now k v).stat.evicted =
        if c.maxKeys > 0
            && (trimInsert c.evictList now ⟨k, v, now + c.ttl⟩).length > c.maxKeys
        then (c.stat.evicted + (if backExpired c.evictList now then 1 else 0)) + 1
        else c.stat.evicted + (if backExpired c.evictList now then 1 else 0)))
    ∧ (hasKey c.evictList k = true →
      (setOp c now k v).evictList = eraseKey c.evictList k ++ [⟨k, v, now + c.ttl⟩]
      ∧ (setOp c now k v).stat = c.stat) := by
  constructor
  · intro hfresh
    unfold setOp
    simp only [hfresh, Bool.false_eq_true, if_neg, not_false_iff]
    set f : CacheItem := ⟨k, v, now + c.ttl⟩ with hf
    set c1 : LoadingCache :=
      { c with evictList := c.evictList ++ [f],
               stat := { c.stat with added := c.stat.added + 1 } } with hc1
    have ht1 : c1.ttl ≠ noEvictionTTL := httl
    rw [if_pos ht1]
    set c2 : LoadingCache := removeOldestIfExpired c1 now with hc2
    have hc2mk : c2.maxKeys = c.maxKeys := by
      have h := (sameCfg_removeOldestIfExpired c1 now).2.1
      rw [← hc2] at h
      exact h
    have hkey : c2.evictList = trimInsert c.evictList now f
        ∧ c2.stat.evicted = c.stat.evicted + (if backExpired c.evictList now then 1 else 0) := by
      rw [hc2]
      cases hl : c.evictList with
      | nil =>
        have hl1 : c1.evictList = f :: [] := by rw [hc1, hl]; rfl
        rw [removeOldestIfExpired_cons hl1 now]
        have hnx : ¬(f.expiresAt < now) := by
          rw [hf]
          simp only []
          omega
        rw [if_neg hnx]
        have hbe : backExpired ([] : List CacheItem) now = false := rfl
        constructor
        · rw [hc1, hl]
          simp [trimInsert, hbe]
        · rw [hc1]
          simp [hbe]
      | cons a l2 =>
        have hl1 : c1.evictList = a :: (l2 ++ [f]) := by rw [hc1, hl]; rfl
        rw [removeOldestIfExpired_cons hl1 now]
        have hbe : backExpired (a :: l2) now = decide (a.expiresAt < now) := rfl
        by_cases hx : a.expiresAt < now
        · rw [if_pos hx]
          constructor
          · simp [trimInsert, hbe, hx]
          · simp [hbe, hx]
        · rw [if_neg hx]
          constructor
          · rw [hl1]
            simp [trimInsert, hbe, hx]
          · simp [hbe, hx]
    obtain ⟨hlist2, hev2⟩ := hkey
    by_cases hs : (c2.maxKeys > 0 && c2.evictList.length > c2.maxKeys) = true
    · rw [if_pos hs]
      have hs2 : (c.maxKeys > 0 && (trimInsert c.evictList now f).length > c.maxKeys) = true := by
        rw [← hlist2, ← hc2mk]
        exact hs
      cases hl2 : c2.evictList with
      | nil =>
        exfalso
        have hsp := (Bool.and_eq_true _ _).mp hs
        have h1 : c2.maxKeys > 0 := by simpa using hsp.1
        have h2 : c2.evictList.length > c2.maxKeys := by simpa using hsp.2
        rw [hl2] at h2
        simp only [List.length_nil] at h2
        omega
      | cons b rest =>
        rw [removeOldest_cons hl2]
        constructor
        · rw [if_pos hs2]
          show rest = (trimInsert c.evictList now f).tail
          rw [← hlist2, hl2]
          rfl
        · rw [if_pos hs2]
          show c2.stat.evicted + 1 = _
          rw [hev2]
    · rw [if_neg hs]
      have hs2 : ¬((c.maxKeys > 0 && (trimInsert c.evictList now f).length > c.maxKeys) = true) := by
        rw [← hlist2, ← hc2mk]
        exact hs
      constructor
      · rw [if_neg hs2]
        exact hlist2
      · rw [if_neg hs2]
        exact hev2
  · intro hk
    unfold setOp
    rw [if_pos hk]
    exact ⟨rfl, rfl⟩

/-! ### Claim theorems -/

/-- C1: for any key absent from the index or whose entry is expired at the
moment of the call, `Get` reports absence and increments `misses` by
exactly one, and neither `Get` nor `Peek` removes an expired-but-present
entry: the recency list — hence the index and `Len()` — is unchanged by
either operation. -/
theorem getOp_peekOp_absent_or_expired {c : LoadingCache} {now : Int} {k : String}
    (h : ∀ it, findEntry c.evictList k = some it → it.expiresAt < now) :
    (getOp c now k).1 = none
    ∧ (getOp c now k).2.stat.misses = c.stat.misses + 1
    ∧ (getOp c now k).2.evictList = c.evictList
    ∧ lenOp (getOp c now k).2 = lenOp c
    ∧ (peekOp c now k).1 = none
    ∧ (peekOp c now k).2 = c := by
  cases hf : findEntry c.evictList k with
  | some it =>
    have hx := h it hf
    unfold getOp peekOp lenOp
    rw [hf]
    simp [hx]
  | none =>
    unfold getOp peekOp lenOp
    rw [hf]
    simp

/-- A cache holding a single entry that expired at instant 10. -/
def cacheC1 : LoadingCache :=
  { ttl := 40, maxKeys := 0, isLRU := false, stat := ⟨0, 0, 1, 0⟩,
    evictList := [⟨"a", 7, 10⟩] }

theorem getOp_peekOp_absent_or_expired_witness :
    (getOp cacheC1 50 "a").1 = none
    ∧ (getOp cacheC1 50 "a").2.stat.misses = cacheC1.stat.misses + 1
    ∧ (getOp cacheC1 50 "a").2.evictList = cacheC1.evictList
    ∧ lenOp (getOp cacheC1 50 "a").2 = lenOp cacheC1
    ∧ (peekOp cacheC1 50 "a").1 = none
    ∧ (peekOp cacheC1 50 "a").2 = cacheC1 :=
  getOp_peekOp_absent_or_expired (by
    intro it hf
    have he : some (⟨"a", 7, 10⟩ : CacheItem) = some it := hf
    have := Option.some.inj he
    rw [← this]
    decide)

/-- C2: on a cache configured with a positive `MaxKeys`, immediately after
any `Set` returns, `Len()` does not exceed `MaxKeys`. -/
theorem setOp_respects_maxKeys {ttl : Int} {mk : Nat} {lru : Bool} {c : LoadingCache}
    {t : Int} (h : Reach ttl mk lru c t) (hmk : 0 < mk) (now : Int) (k : String) (v : Nat) :
    lenOp (setOp c now k v) ≤ mk := by
  have hcfg := (reach_cfg h).2.1
  have hlen := reach_len h hmk
  unfold lenOp
  rw [← hcfg]
  exact len_setOp_le k v (by rw [hcfg]; exact hmk) (by rw [hcfg]; exact hlen)

theorem setOp_respects_maxKeys_witness :
    lenOp (setOp (newLoadingCache 5 1 false) 0 "a" 1) ≤ 1 :=
  setOp_respects_maxKeys (Reach.init 0) (by decide) 0 "a" 1

/-- C3: on every reachable state, after `DeleteExpired` returns no entry
strictly past its expiration instant remains; in LRC mode the early exit
at the first live back node is justified by invariant I4, in LRU mode the
whole list is scanned. -/
theorem deleteExpired_removes_expired {ttl : Int} {mk : Nat} {lru : Bool}
    {c : LoadingCache} {t : Int} (h : Reach ttl mk lru c t) (now : Int) :
    ∀ it ∈ (deleteExpired c now).evictList, now ≤ it.expiresAt := by
  refine deleteExpired_live now (reach_nodup h) ?_
  intro hlf
  have hl : lru = false := ((reach_cfg h).2.2).symm.trans hlf
  exact reach_sorted (hl ▸ h)

theorem deleteExpired_removes_expired_witness :
    (30 : Int) ≤ (⟨"a", 1, 40⟩ : CacheItem).expiresAt :=
  @deleteExpired_removes_expired 40 0 false _ 0
    (Reach.set "a" 1 (Reach.init 0)) 30 ⟨"a", 1, 40⟩ (by decide)

/-- The C4 counterexample pre-state, reached by two fresh inserts under
TTL 10: `Set("b")` at instant 0 and `Set("a")` at instant 5. -/
def cacheC4 : LoadingCache :=
  setOp (setOp (newLoadingCache 10 0 false) 0 "b" 2) 5 "a" 1

/-- C4 counterexample: at instant 12 the back node `"b"` is expired and
the TTL is configured, yet `Set` on the already-present key `"a"` returns
on the update path without inspecting the back node: `"b"` is still the
back node afterwards and nothing was evicted — refuting the claim that
the trim runs whether the key is fresh or already present. -/
theorem setOp_update_skips_trim_cex :
    cacheC4.ttl ≠ noEvictionTTL
    ∧ hasKey cacheC4.evictList "a" = true
    ∧ backExpired cacheC4.evictList 12 = true
    ∧ (setOp cacheC4 12 "a" 9).evictList.head? = some ⟨"b", 2, 10⟩
    ∧ (setOp cacheC4 12 "a" 9).stat.evicted = cacheC4.stat.evicted := by
  refine ⟨by decide, by decide, by decide, by decide, by decide⟩

/-- A size-capped cache (`MaxKeys = 2`) with an expired back node `"b"`
and a live front node `"x"`. -/
def cacheC4b : LoadingCache :=
  { ttl := 10, maxKeys := 2, isLRU := false, stat := ⟨0, 0, 2, 0⟩,
    evictList := [⟨"b", 2, 10⟩, ⟨"x", 1, 15⟩] }

theorem setOp_fresh_trim_witness :
    (((setOp cacheC4b 12 "c" 3).evictList =
        if cacheC4b.maxKeys > 0
            && (trimInsert cacheC4b.evictList 12 ⟨"c", 3, 12 + cacheC4b.ttl⟩).length
                > cacheC4b.maxKeys
        then (trimInsert cacheC4b.evictList 12 ⟨"c", 3, 12 + cacheC4b.ttl⟩).tail
        else trimInsert cacheC4b.evictList 12 ⟨"c", 3, 12 + cacheC4b.ttl⟩)
      ∧ ((setOp cacheC4b 12 "c" 3).stat.evicted =
        if cacheC4b.maxKeys > 0
            && (trimInsert cacheC4b.evictList 12 ⟨"c", 3, 12 + cacheC4b.ttl⟩).length
                > cacheC4b.maxKeys
        then (cacheC4b.stat.evicted + (if backExpired cacheC4b.evictList 12 then 1 else 0)) + 1
        else cacheC4b.stat.evicted + (if backExpired cacheC4b.evictList 12 then 1 else 0)))
    ∧ ((setOp cacheC4b 12 "b" 9).evictList
        = eraseKey cacheC4b.evictList "b" ++ [⟨"b", 9, 12 + cacheC4b.ttl⟩]
      ∧ (setOp cacheC4b 12 "b" 9).stat = cacheC4b.stat) :=
  ⟨(setOp_fresh_trim "c" 3 (by decide) (by decide)).1 (by decide),
   (setOp_fresh_trim "b" 9 (by decide) (by decide)).2 (by decide)⟩

/-- C5: a successful `Get` of a live key reorders `Keys()` exactly as the
mode dictates: in LRU mode the key moves to the last (newest) position
with all other keys keeping their relative order, in LRC mode `Keys()` is
unchanged. -/
theorem getOp_live_key_order {c : LoadingCache} {now : Int} {k : String} {it : CacheItem}
    (hnd : NodupKeys c.evictList) (hf : findEntry c.evictList k = some it)
    (hlive : ¬(it.expiresAt < now)) :
    keysOp (getOp c now k).2 =
      if c.isLRU then (keysOp c).filter (fun x => !(x == k)) ++ [k] else keysOp c := by
  cases hlru : c.isLRU with
  | false =>
    rw [if_neg (by decide)]
    unfold keysOp
    rw [getOp_list_of_notLRU now k hlru]
  | true =>
    rw [if_pos rfl]
    unfold getOp keysOp
    rw [hf]
    simp only [hlive, if_neg, hlru, if_pos, not_false_iff]
    have hsplit : keysOf (eraseKey c.evictList k ++ [it])
        = keysOf (eraseKey c.evictList k) ++ [it.key] := by
      simp [keysOf]
    rw [hsplit, keysOf_eraseKey hnd, findEntry_some_key hf]

/-- An LRU cache holding two live entries, oldest `"a"`. -/
def cacheC5 : LoadingCache :=
  { ttl := 100, maxKeys := 0, isLRU := true, stat := ⟨0, 0, 2, 0⟩,
    evictList := [⟨"a", 1, 100⟩, ⟨"b", 2, 100⟩] }

theorem getOp_live_key_order_witness :
    keysOp (getOp cacheC5 10 "a").2 =
      if cacheC5.isLRU then (keysOp cacheC5).filter (fun x => !(x == "a")) ++ ["a"]
      else keysOp cacheC5 :=
  @getOp_live_key_order cacheC5 10 "a" ⟨"a", 1, 100⟩ (by unfold NodupKeys; decide)
    (by decide) (by decide)

/-- C6: in every reachable state the counters satisfy
`added = evicted + Len()`: every removal path counts one eviction per
removed entry, `Purge` one per surviving entry, and a `Set` on an existing
key touches neither counter. -/
theorem stats_counter_equation {ttl : Int} {mk : Nat} {lru : Bool} {c : LoadingCache}
    {t : Int} (h : Reach ttl mk lru c t) :
    (statOp c).added = (statOp c).evicted + lenOp c :=
  reach_counts h

theorem stats_counter_equation_witness :
    (statOp (setOp (newLoadingCache 5 0 false) 0 "a" 2)).added
      = (statOp (setOp (newLoadingCache 5 0 false) 0 "a" 2)).evicted
        + lenOp (setOp (newLoadingCache 5 0 false) 0 "a" 2) :=
  stats_counter_equation (Reach.set "a" 2 (Reach.init 0))

/-- C7: expiry is strict: at the exact instant `now = expiresAt` the
entry is still live, so `Get` and `Peek` return it as present and
`DeleteExpired` run at that instant does not remove it. -/
theorem expiry_boundary_strict {c : LoadingCache} {now : Int} {k : String} {it : CacheItem}
    (hnd : NodupKeys c.evictList) (hf : findEntry c.evictList k = some it)
    (hb : it.expiresAt = now) :
    (getOp c now k).1 = some it.value
    ∧ (peekOp c now k).1 = some it.value
    ∧ it ∈ (deleteExpired c now).evictList := by
  have hlive : ¬(it.expiresAt < now) := by omega
  refine ⟨?_, ?_, ?_⟩
  · unfold getOp
    rw [hf]
    simp [hlive]
  · unfold peekOp
    rw [hf]
    simp [hlive]
  · exact mem_deleteExpiredGo_of_live hnd (findEntry_mem hf) hlive

/-- A cache holding one entry whose expiration instant is exactly 50. -/
def cacheC7 : LoadingCache :=
  { ttl := 100, maxKeys := 0, isLRU := false, stat := ⟨0, 0, 1, 0⟩,
    evictList := [⟨"a", 9, 50⟩] }

theorem expiry_boundary_strict_witness :
    (getOp cacheC7 50 "a").1 = some 9
    ∧ (peekOp cacheC7 50 "a").1 = some 9
    ∧ (⟨"a", 9, 50⟩ : CacheItem) ∈ (deleteExpired cacheC7 50).evictList :=
  @expiry_boundary_strict cacheC7 50 "a" ⟨"a", 9, 50⟩ (by unfold NodupKeys; decide)
    (by decide) (by decide)

/-- C8: the legacy adapter substitutes the zero value whenever the core
reports `present = false` — in particular for expired-but-present keys,
where the core itself surfaces the stored value next to the `false`
flag — and passes the core's value through unchanged when the core
reports `present = true`. -/
theorem adapter_masks_absent_value (c : LoadingCache) (now : Int) (k : String) :
    ((cacheV2Get c now k).1
        = if (v3Get c now k).1.2 then (v3Get c now k).1 else (0, false))
    ∧ ((cacheV2Peek c now k).1
        = if (v3Peek c now k).1.2 then (v3Peek c now k).1 else (0, false))
    ∧ (∀ it, findEntry c.evictList k = some it → it.expiresAt < now →
        (v3Get c now k).1 = (it.value, false) ∧ (cacheV2Get c now k).1 = (0, false)) := by
  refine ⟨?_, ?_, ?_⟩
  · by_cases hb : (v3Get c now k).1.2
    · simp [cacheV2Get, hb]
    · have hb' : (v3Get c now k).1.2 = false := by simpa using hb
      simp [cacheV2Get, hb']
  · by_cases hb : (v3Peek c now k).1.2
    · simp [cacheV2Peek, hb]
    · have hb' : (v3Peek c now k).1.2 = false := by simpa using hb
      simp [cacheV2Peek, hb']
  · intro it hf hx
    have h1 : (v3Get c now k).1 = (it.value, false) := by
      unfold v3Get
      rw [hf]
      simp [hx]
    exact ⟨h1, by simp [cacheV2Get, h1]⟩

/-- A cache holding one entry, expired at instant 50, with value 7. -/
def cacheC8 : LoadingCache :=
  { ttl := 40, maxKeys := 0, isLRU := false, stat := ⟨0, 0, 1, 0⟩,
    evictList := [⟨"a", 7, 10⟩] }

theorem adapter_masks_absent_value_witness :
    (v3Get cacheC8 50 "a").1 = (7, false) ∧ (cacheV2Get cacheC8 50 "a").1 = (0, false) :=
  (adapter_masks_absent_value cacheC8 50 "a").2.2 ⟨"a", 7, 10⟩ (by decide) (by decide)

/-- C10: with a strictly positive TTL, `Set(key, value)` never removes the
entry it just wrote: the key is present in the index immediately after
`Set` returns, on both the fresh-insert and the update path. -/
theorem setOp_keeps_written_key (c : LoadingCache) (now : Int) (k : String) (v : Nat)
    (httl : 0 < c.ttl) : hasKey (setOp c now k v).evictList k = true := by
  by_cases hk : hasKey c.evictList k = true
  · unfold setOp
    rw [if_pos hk]
    exact hasKey_of_mem
      (show (⟨k, v, now + c.ttl⟩ : CacheItem) ∈ eraseKey c.evictList k ++ [⟨k, v, now + c.ttl⟩]
        by simp) rfl
  · have hk' : hasKey c.evictList k = false := by simpa using hk
    obtain ⟨l2, hl2⟩ := setOp_fresh_form hk' (le_of_lt httl)
    rw [hl2]
    exact hasKey_of_mem
      (show (⟨k, v, now + c.ttl⟩ : CacheItem) ∈ l2 ++ [⟨k, v, now + c.ttl⟩] by simp) rfl

theorem setOp_keeps_written_key_witness :
    hasKey (setOp (newLoadingCache 10 0 false) 0 "k" 1).evictList "k" = true :=
  setOp_keeps_written_key (newLoadingCache 10 0 false) 0 "k" 1 (by decide)
